import Mathlib

/- Verification of the zk-trust certification pipeline (src/trust.py):
   the canonical encoder (Stats.split_address, Stats.to_zkvm_input), the
   proof-client output parsing (Docker.get_results), the input
   reconciliation performed by main, and the verifier submission encoding
   (Proof.to_solidity, Inputs.to_solidity). -/

namespace ZkTrust

/-- Value of one hexadecimal digit character, as accepted by the Python
builtin `int(_, 16)`: digits `0`-`9`, letters `a`-`f` and `A`-`F`. -/
def hexDigit? (c : Char) : Option Nat :=
  if '0' ≤ c ∧ c ≤ '9' then some (c.toNat - 48)
  else if 'a' ≤ c ∧ c ≤ 'f' then some (c.toNat - 97 + 10)
  else if 'A' ≤ c ∧ c ≤ 'F' then some (c.toNat - 65 + 10)
  else none

/-- Left-to-right base-16 evaluation of a character list with accumulator,
failing on the first character that is not a hex digit. -/
def hexValAux (acc : Nat) : List Char → Option Nat
  | [] => some acc
  | c :: cs =>
    match hexDigit? c with
    | none => none
    | some d => hexValAux (acc * 16 + d) cs

/-- Model of the Python builtin `int(s, 16)` on the string forms reaching
this program: an optional `0x`/`0X` prefix followed by one or more hex
digits. Python additionally strips surrounding whitespace and accepts a
sign and digit-group underscores; no address or prover field handled by
the pipeline carries those forms. -/
def parseHex (s : String) : Option Nat :=
  let cs := if s.data.take 2 = ['0', 'x'] ∨ s.data.take 2 = ['0', 'X']
            then s.data.drop 2 else s.data
  if cs = [] then none else hexValAux 0 cs

/-- Digit values of a character list (0 for non-hex characters; only used
under an all-hex hypothesis). -/
def digitsOf (cs : List Char) : List Nat :=
  cs.map fun c => (hexDigit? c).getD 0

/-- The base-16 value of a list of hex-digit characters. -/
def hexStringVal (cs : List Char) : Nat :=
  (digitsOf cs).foldl (fun a d => a * 16 + d) 0

/-- Lowercase hexadecimal digit (the form the spec fixes for addresses). -/
def isLowerHexChar (c : Char) : Bool :=
  decide ('0' ≤ c ∧ c ≤ '9') || decide ('a' ≤ c ∧ c ≤ 'f')

/-- Model of the Proof dataclass (src/trust.py lines 19-33). The dataclass
annotation claims `list[int]`, but `Docker.get_results` stores the raw
hexadecimal strings read from `proof.json`; they are only parsed to
integers inside `to_solidity`. -/
structure Proof where
  a : List String
  b : List (List String)
  c : List String

/-- Model of the Inputs dataclass (src/trust.py lines 36-49): the four
public inputs, in the fixed field order of the source. -/
structure Inputs where
  score : Nat
  signature : Nat
  address_part1 : Nat
  address_part2 : Nat

/-- Model of the Computation dataclass (src/trust.py lines 56-61). -/
structure Computation where
  curve : String
  proof : Proof
  scheme : String
  inputs : Inputs

/-- Model of the Stats dataclass (src/trust.py lines 64-74). Numeric
fields are arbitrary-precision unsigned integers, as in Python. -/
structure Stats where
  contract_address : String
  has_source_code : Bool
  total_supply : Nat
  name : String
  symbol : String
  days_ago_added : Nat
  is_active : Bool
  volume : Nat
  market_cap : Nat

/-- Model of Stats.split_address (src/trust.py lines 89-106): halve the
address string at `middle = len // 2` and parse each half in base 16.
The Python code raises ValueError when a half fails to parse; the model
returns none there. There is no length validation. -/
def Stats.split_address (st : Stats) : Option (Nat × Nat) :=
  let size := st.contract_address.length
  let middle := size / 2
  match parseHex (String.mk (st.contract_address.data.take middle)),
        parseHex (String.mk (st.contract_address.data.drop middle)) with
  | some address_part1, some address_part2 => some (address_part1, address_part2)
  | _, _ => none

/-- Model of Stats.to_zkvm_input (src/trust.py lines 108-119): the 8-element
prover input vector, in source order. `int(True) = 1`, `int(False) = 0`. -/
def Stats.to_zkvm_input (st : Stats) : Option (List Nat) :=
  match st.split_address with
  | none => none
  | some (address_part1, address_part2) =>
    some [address_part1, address_part2, st.days_ago_added, cond st.is_active 1 0,
          st.volume, st.market_cap, st.total_supply, cond st.has_source_code 1 0]

/-- Model of Inputs.to_solidity (src/trust.py lines 43-49): the 4-element
uint256 sequence in fixed field order. -/
def Inputs.to_solidity (i : Inputs) : List Nat :=
  [i.score, i.signature, i.address_part1, i.address_part2]

/-- Model of Proof.to_solidity (src/trust.py lines 25-33): index into the
stored hex-string lists and parse each entry in base 16, producing the
pair-array-pair layout. Indexing or parse failures (IndexError or
ValueError in Python) are none. -/
def Proof.to_solidity (p : Proof) : Option ((Nat × Nat) × List (List Nat) × (Nat × Nat)) := do
  let a0 ← (p.a.get? 0).bind parseHex
  let a1 ← (p.a.get? 1).bind parseHex
  let row0 ← p.b.get? 0
  let b00 ← (row0.get? 0).bind parseHex
  let b01 ← (row0.get? 1).bind parseHex
  let row1 ← p.b.get? 1
  let b10 ← (row1.get? 0).bind parseHex
  let b11 ← (row1.get? 1).bind parseHex
  let c0 ← (p.c.get? 0).bind parseHex
  let c1 ← (p.c.get? 1).bind parseHex
  some ((a0, a1), [[b00, b01], [b10, b11]], (c0, c1))

/-- The fields of the prover output document `proof.json` that
Docker.get_results reads: `curve`, `scheme`, the three `proof` entries
(lists of hexadecimal strings), and the `inputs` list. -/
structure ProverDoc where
  curve : String
  scheme : String
  proof : Proof
  inputs : List String

/-- Model of Docker.get_results (src/trust.py lines 233-258): copy `curve`,
`scheme` and the three `proof` hex-string lists verbatim, and parse the
first four `inputs` entries in base 16, in the order score, signature,
address_part1, address_part2. A missing entry (IndexError) or a failed
parse (ValueError) is none. -/
def Docker.get_results (doc : ProverDoc) : Option Computation := do
  let score ← (doc.inputs.get? 0).bind parseHex
  let signature ← (doc.inputs.get? 1).bind parseHex
  let address_part1 ← (doc.inputs.get? 2).bind parseHex
  let address_part2 ← (doc.inputs.get? 3).bind parseHex
  some ⟨doc.curve, ⟨doc.proof.a, doc.proof.b, doc.proof.c⟩, doc.scheme,
        ⟨score, signature, address_part1, address_part2⟩⟩

/-- Model of the reconciliation step of main (src/trust.py lines 352-357):
the public inputs submitted for verification take `score` and `signature`
from the computation returned by the prover and recompute both address
halves from the fact set via split_address, ignoring the address fields
the prover claimed. -/
def reconcile (stats : Stats) (computation : Computation) : Option Inputs :=
  match stats.split_address with
  | none => none
  | some (address_part1, address_part2) =>
    some ⟨computation.inputs.score, computation.inputs.signature,
          address_part1, address_part2⟩

/-- Errors that can end the tail of main (src/trust.py lines 358-365). -/
inductive MainError where
  | verifierCallFailed
  | proofVerificationFailed

/-- Observable outcome of the tail of main: the value of the printed
`Certified:` line when it is reached, and the error ending the run, if
any. -/
structure RunOutcome where
  printed_certified : Option Bool
  error : Option MainError

/-- Model of the tail of main (src/trust.py lines 358-365): a failure
inside Contract.verify propagates before anything is printed; otherwise
the receipt is printed, and a false receipt then raises RuntimeError
(line 365). -/
def mainTail (verifyResult : Except Unit Bool) : RunOutcome :=
  match verifyResult with
  | Except.error _ => ⟨none, some MainError.verifierCallFailed⟩
  | Except.ok receipt =>
    ⟨some receipt, if receipt then none else some MainError.proofVerificationFailed⟩



theorem hexDigit?_lt {c : Char} {d : Nat} (h : hexDigit? c = some d) : d < 16 := by
  unfold hexDigit? at h
  split_ifs at h with h1 h2 h3
  · have hb : c.toNat ≤ 57 := h1.2
    injection h with h
    omega
  · have hb : c.toNat ≤ 102 := h2.2
    injection h with h
    omega
  · have hb : c.toNat ≤ 70 := h3.2
    injection h with h
    omega

theorem lower_range {c : Char} (h : isLowerHexChar c = true) :
    (48 ≤ c.toNat ∧ c.toNat ≤ 57) ∨ (97 ≤ c.toNat ∧ c.toNat ≤ 102) := by
  unfold isLowerHexChar at h
  rcases Bool.or_eq_true_iff.mp h with h' | h'
  · left
    have h'' := of_decide_eq_true h'
    exact ⟨h''.1, h''.2⟩
  · right
    have h'' := of_decide_eq_true h'
    exact ⟨h''.1, h''.2⟩

theorem hexDigit?_digit {c : Char} (h1 : 48 ≤ c.toNat) (h2 : c.toNat ≤ 57) :
    hexDigit? c = some (c.toNat - 48) := by
  unfold hexDigit?
  rw [if_pos]
  exact ⟨h1, h2⟩

theorem hexDigit?_letter {c : Char} (h1 : 97 ≤ c.toNat) (h2 : c.toNat ≤ 102) :
    hexDigit? c = some (c.toNat - 97 + 10) := by
  unfold hexDigit?
  rw [if_neg, if_pos]
  · exact ⟨h1, h2⟩
  · rintro ⟨hA, hB⟩
    have hb : c.toNat ≤ 57 := hB
    omega

theorem lower_isSome {c : Char} (h : isLowerHexChar c = true) : (hexDigit? c).isSome := by
  rcases lower_range h with ⟨h1, h2⟩ | ⟨h1, h2⟩
  · rw [hexDigit?_digit h1 h2]; rfl
  · rw [hexDigit?_letter h1 h2]; rfl

theorem lowerHex_inj {c1 c2 : Char} (h1 : isLowerHexChar c1 = true)
    (h2 : isLowerHexChar c2 = true) (h : hexDigit? c1 = hexDigit? c2) : c1 = c2 := by
  have hnat : c1.toNat = c2.toNat := by
    rcases lower_range h1 with ⟨ha1, ha2⟩ | ⟨ha1, ha2⟩ <;>
      rcases lower_range h2 with ⟨hb1, hb2⟩ | ⟨hb1, hb2⟩
    · rw [hexDigit?_digit ha1 ha2, hexDigit?_digit hb1 hb2] at h
      injection h with h
      omega
    · rw [hexDigit?_digit ha1 ha2, hexDigit?_letter hb1 hb2] at h
      injection h with h
      omega
    · rw [hexDigit?_letter ha1 ha2, hexDigit?_digit hb1 hb2] at h
      injection h with h
      omega
    · rw [hexDigit?_letter ha1 ha2, hexDigit?_letter hb1 hb2] at h
      injection h with h
      omega
  exact Char.ext (UInt32.ext hnat)

theorem hexValAux_of_all {cs : List Char} (h : ∀ c ∈ cs, (hexDigit? c).isSome) (acc : Nat) :
    hexValAux acc cs = some ((digitsOf cs).foldl (fun a d => a * 16 + d) acc) := by
  induction cs generalizing acc with
  | nil => rfl
  | cons c cs ih =>
    have hc : (hexDigit? c).isSome := h c (List.mem_cons_self c cs)
    obtain ⟨d, hd⟩ := Option.isSome_iff_exists.mp hc
    have ht : ∀ x ∈ cs, (hexDigit? x).isSome := fun x hx => h x (List.mem_cons_of_mem c hx)
    simp only [hexValAux, hd, digitsOf, List.map_cons, List.foldl_cons, Option.getD_some]
    exact ih ht (acc * 16 + d)

theorem foldl_shift (l : List Nat) (acc : Nat) :
    l.foldl (fun a d => a * 16 + d) acc =
      acc * 16 ^ l.length + l.foldl (fun a d => a * 16 + d) 0 := by
  induction l generalizing acc with
  | nil => simp
  | cons d l ih =>
    simp only [List.foldl_cons, List.length_cons]
    rw [ih (acc * 16 + d), ih (0 * 16 + d)]
    ring

theorem foldl_lt {l : List Nat} (h : ∀ d ∈ l, d < 16) (acc : Nat) :
    l.foldl (fun a d => a * 16 + d) acc < (acc + 1) * 16 ^ l.length := by
  induction l generalizing acc with
  | nil => simp
  | cons d l ih =>
    simp only [List.foldl_cons, List.length_cons]
    have hd : d < 16 := h d (List.mem_cons_self d l)
    have ht : ∀ x ∈ l, x < 16 := fun x hx => h x (List.mem_cons_of_mem d hx)
    calc l.foldl (fun a d => a * 16 + d) (acc * 16 + d)
        < (acc * 16 + d + 1) * 16 ^ l.length := ih ht (acc * 16 + d)
      _ ≤ ((acc + 1) * 16) * 16 ^ l.length :=
          Nat.mul_le_mul_right _ (by omega)
      _ = (acc + 1) * 16 ^ (l.length + 1) := by ring

theorem foldl16_inj : ∀ (l1 l2 : List Nat), l1.length = l2.length →
    (∀ d ∈ l1, d < 16) → (∀ d ∈ l2, d < 16) →
    l1.foldl (fun a d => a * 16 + d) 0 = l2.foldl (fun a d => a * 16 + d) 0 →
    l1 = l2 := by
  intro l1
  induction l1 with
  | nil =>
    intro l2 hlen _ _ _
    exact (List.length_eq_zero.mp hlen.symm).symm
  | cons d1 t1 ih =>
    intro l2 hlen h1 h2 hv
    cases l2 with
    | nil => simp at hlen
    | cons d2 t2 =>
      simp only [List.length_cons, Nat.succ.injEq] at hlen
      simp only [List.foldl_cons, Nat.zero_mul, Nat.zero_add] at hv
      rw [foldl_shift t1 d1, foldl_shift t2 d2, hlen] at hv
      have hr1 : t1.foldl (fun a d => a * 16 + d) 0 < 16 ^ t2.length := by
        have := foldl_lt (fun x hx => h1 x (List.mem_cons_of_mem d1 hx)) 0
        simpa [hlen] using this
      have hr2 : t2.foldl (fun a d => a * 16 + d) 0 < 16 ^ t2.length := by
        have := foldl_lt (fun x hx => h2 x (List.mem_cons_of_mem d2 hx)) 0
        simpa using this
      have hd : d1 = d2 := by
        by_contra hne
        rcases Nat.lt_or_ge d1 d2 with hlt | hge
        · have : d1 * 16 ^ t2.length + 16 ^ t2.length ≤ d2 * 16 ^ t2.length := by
            have : (d1 + 1) * 16 ^ t2.length ≤ d2 * 16 ^ t2.length :=
              Nat.mul_le_mul_right _ hlt
            linarith [this]
          omega
        · have hlt2 : d2 < d1 := by omega
          have : d2 * 16 ^ t2.length + 16 ^ t2.length ≤ d1 * 16 ^ t2.length := by
            have : (d2 + 1) * 16 ^ t2.length ≤ d1 * 16 ^ t2.length :=
              Nat.mul_le_mul_right _ hlt2
            linarith [this]
          omega
      subst hd
      have hrest : t1.foldl (fun a d => a * 16 + d) 0 = t2.foldl (fun a d => a * 16 + d) 0 := by
        omega
      rw [ih t2 hlen (fun x hx => h1 x (List.mem_cons_of_mem d1 hx))
        (fun x hx => h2 x (List.mem_cons_of_mem d1 hx)) hrest]

theorem lowerHex_chars_inj : ∀ (cs1 cs2 : List Char), cs1.length = cs2.length →
    (∀ c ∈ cs1, isLowerHexChar c = true) → (∀ c ∈ cs2, isLowerHexChar c = true) →
    digitsOf cs1 = digitsOf cs2 → cs1 = cs2 := by
  intro cs1
  induction cs1 with
  | nil =>
    intro cs2 hlen _ _ _
    exact (List.length_eq_zero.mp hlen.symm).symm
  | cons c1 t1 ih =>
    intro cs2 hlen h1 h2 hd
    cases cs2 with
    | nil => simp at hlen
    | cons c2 t2 =>
      simp only [List.length_cons, Nat.succ.injEq] at hlen
      simp only [digitsOf, List.map_cons, List.cons.injEq] at hd
      have hc1 := h1 c1 (List.mem_cons_self c1 t1)
      have hc2 := h2 c2 (List.mem_cons_self c2 t2)
      obtain ⟨d1, hd1⟩ := Option.isSome_iff_exists.mp (lower_isSome hc1)
      obtain ⟨d2, hd2⟩ := Option.isSome_iff_exists.mp (lower_isSome hc2)
      have hceq : c1 = c2 := by
        apply lowerHex_inj hc1 hc2
        rw [hd1, hd2]
        have := hd.1
        rw [hd1, hd2] at this
        simpa using this
      rw [hceq, ih t2 hlen (fun x hx => h1 x (List.mem_cons_of_mem c1 hx))
        (fun x hx => h2 x (List.mem_cons_of_mem c2 hx)) hd.2]

theorem parseHex_of_hex {s : String} (hne : s.data ≠ [])
    (h : ∀ c ∈ s.data, (hexDigit? c).isSome) :
    parseHex s = some (hexStringVal s.data) := by
  unfold parseHex
  have hpre : ¬(s.data.take 2 = ['0', 'x'] ∨ s.data.take 2 = ['0', 'X']) := by
    rintro (he | he)
    · have hx : 'x' ∈ s.data := List.take_subset 2 s.data (by rw [he]; simp)
      have := h 'x' hx
      simp [hexDigit?] at this
    · have hx : 'X' ∈ s.data := List.take_subset 2 s.data (by rw [he]; simp)
      have := h 'X' hx
      simp [hexDigit?] at this
  rw [if_neg hpre, if_neg hne]
  exact hexValAux_of_all h 0


theorem digitsOf_lt {cs : List Char} (h : ∀ c ∈ cs, (hexDigit? c).isSome) :
    ∀ d ∈ digitsOf cs, d < 16 := by
  intro d hd
  obtain ⟨c, hc, hcd⟩ := List.mem_map.mp hd
  obtain ⟨v, hv⟩ := Option.isSome_iff_exists.mp (h c hc)
  rw [hv] at hcd
  simp only [Option.getD_some] at hcd
  subst hcd
  exact hexDigit?_lt hv

theorem split_address_hex (st : Stats)
    (h : ∀ c ∈ st.contract_address.data, (hexDigit? c).isSome)
    (hlen : 2 ≤ st.contract_address.length) :
    st.split_address =
      some (hexStringVal (st.contract_address.data.take (st.contract_address.length / 2)),
            hexStringVal (st.contract_address.data.drop (st.contract_address.length / 2))) := by
  have hL : st.contract_address.length = st.contract_address.data.length := rfl
  have htake_ne : st.contract_address.data.take (st.contract_address.length / 2) ≠ [] := by
    intro hnil
    have hlt := List.length_take (st.contract_address.length / 2) st.contract_address.data
    rw [hnil] at hlt
    simp only [List.length_nil] at hlt
    omega
  have hdrop_ne : st.contract_address.data.drop (st.contract_address.length / 2) ≠ [] := by
    intro hnil
    have hlt := List.length_drop (st.contract_address.length / 2) st.contract_address.data
    rw [hnil] at hlt
    simp only [List.length_nil] at hlt
    omega
  have h1 := parseHex_of_hex (s := String.mk (st.contract_address.data.take (st.contract_address.length / 2)))
    htake_ne (fun c hc => h c (List.take_subset _ _ hc))
  have h2 := parseHex_of_hex (s := String.mk (st.contract_address.data.drop (st.contract_address.length / 2)))
    hdrop_ne (fun c hc => h c (List.drop_subset _ _ hc))
  simp only [Stats.split_address, h1, h2]


/-- Claim C1: the public inputs submitted for verification carry the address
halves recomputed by split_address on the fact set, with score and signature
copied from the computation; the reconciled output never depends on the
address fields the computation claimed. -/
theorem reconcile_recomputes_address :
    (∀ (st : Stats) (comp : Computation) (p1 p2 : Nat),
       st.split_address = some (p1, p2) →
       reconcile st comp =
         some ⟨comp.inputs.score, comp.inputs.signature, p1, p2⟩) ∧
    (∀ (st : Stats) (c c' : Computation),
       c.inputs.score = c'.inputs.score → c.inputs.signature = c'.inputs.signature →
       reconcile st c = reconcile st c') := by
  constructor
  · intro st comp p1 p2 h
    simp [reconcile, h]
  · intro st c c' hs hg
    unfold reconcile
    cases st.split_address with
    | none => rfl
    | some pr =>
      cases pr
      simp [hs, hg]

theorem reconcile_recomputes_address_witness :
    reconcile ⟨"00000000000000000000000000000000000001", true, 1000, "Token", "TKN", 10, true, 500, 2000⟩
        ⟨"bn128", ⟨[], [], []⟩, "g16", ⟨5, 7, 123, 456⟩⟩ = some ⟨5, 7, 0, 1⟩ ∧
    reconcile ⟨"00000000000000000000000000000000000001", true, 1000, "Token", "TKN", 10, true, 500, 2000⟩
        ⟨"bn128", ⟨[], [], []⟩, "g16", ⟨5, 7, 123, 456⟩⟩ =
      reconcile ⟨"00000000000000000000000000000000000001", true, 1000, "Token", "TKN", 10, true, 500, 2000⟩
        ⟨"bn128", ⟨[], [], []⟩, "g16", ⟨5, 7, 999, 888⟩⟩ :=
  ⟨reconcile_recomputes_address.1 _ _ 0 1 (by decide),
   reconcile_recomputes_address.2 _ _ _ rfl rfl⟩

/-- Claim C2: on a lowercase hexadecimal address of even positive length L,
split_address parses the first L/2 characters as address_part1 and the
remaining characters as address_part2, both in base 16; for L = 40 this is
the pair of values of the first and last 20 hex digits. -/
theorem split_address_spec (st : Stats)
    (hhex : ∀ c ∈ st.contract_address.data, isLowerHexChar c = true)
    (heven : st.contract_address.length % 2 = 0)
    (hpos : 0 < st.contract_address.length) :
    (parseHex (String.mk (st.contract_address.data.take (st.contract_address.length / 2))) =
        some (hexStringVal (st.contract_address.data.take (st.contract_address.length / 2))) ∧
     parseHex (String.mk (st.contract_address.data.drop (st.contract_address.length / 2))) =
        some (hexStringVal (st.contract_address.data.drop (st.contract_address.length / 2))) ∧
     st.split_address =
        some (hexStringVal (st.contract_address.data.take (st.contract_address.length / 2)),
              hexStringVal (st.contract_address.data.drop (st.contract_address.length / 2)))) ∧
    (st.contract_address.length = 40 →
      st.split_address =
        some (hexStringVal (st.contract_address.data.take 20),
              hexStringVal (st.contract_address.data.drop 20))) := by
  have h : ∀ c ∈ st.contract_address.data, (hexDigit? c).isSome :=
    fun c hc => lower_isSome (hhex c hc)
  have hlen : 2 ≤ st.contract_address.length := by omega
  have hsplit := split_address_hex st h hlen
  have hL : st.contract_address.length = st.contract_address.data.length := rfl
  refine ⟨⟨?_, ?_, hsplit⟩, ?_⟩
  · apply parseHex_of_hex
    · intro hnil
      have hnil' : List.take (st.contract_address.length / 2) st.contract_address.data = [] := hnil
      have hlt := List.length_take (st.contract_address.length / 2) st.contract_address.data
      rw [hnil'] at hlt
      simp only [List.length_nil] at hlt
      omega
    · exact fun c hc => h c (List.take_subset _ _ hc)
  · apply parseHex_of_hex
    · intro hnil
      have hnil' : List.drop (st.contract_address.length / 2) st.contract_address.data = [] := hnil
      have hlt := List.length_drop (st.contract_address.length / 2) st.contract_address.data
      rw [hnil'] at hlt
      simp only [List.length_nil] at hlt
      omega
    · exact fun c hc => h c (List.drop_subset _ _ hc)
  · intro h40
    rw [hsplit, h40]

theorem split_address_spec_witness :
    Stats.split_address ⟨"00000000000000000000000000000000000000ff", true, 0, "", "", 0, true, 0, 0⟩ =
      some (0, 255) :=
  (split_address_spec _ (by decide) (by decide) (by decide)).2 (by decide)

/-- Claim C3 (the code lacks the required check): encoding an address of
odd length 3 does not fail; to_zkvm_input silently splits "abc" into
(0xa, 0xbc) and returns a full 8-element vector. -/
theorem encode_no_length_check :
    Stats.to_zkvm_input ⟨"abc", false, 0, "", "", 0, false, 0, 0⟩ =
      some [10, 188, 0, 0, 0, 0, 0, 0] := by decide

/-- Claim C4: for every fact set whose address splits, the encoder returns
exactly the 8-element vector in the fixed order, and the concrete scenario
fact set encodes to [0, 1, 10, 1, 500, 2000, 1000, 1]. -/
theorem to_zkvm_input_vector :
    (∀ (st : Stats) (p1 p2 : Nat), st.split_address = some (p1, p2) →
       st.to_zkvm_input = some [p1, p2, st.days_ago_added, cond st.is_active 1 0,
         st.volume, st.market_cap, st.total_supply, cond st.has_source_code 1 0]) ∧
    Stats.to_zkvm_input ⟨"00000000000000000000000000000000000001", true, 1000, "Token", "TKN", 10, true, 500, 2000⟩ =
      some [0, 1, 10, 1, 500, 2000, 1000, 1] := by
  constructor
  · intro st p1 p2 h
    simp [Stats.to_zkvm_input, h]
  · decide

theorem to_zkvm_input_vector_witness :
    Stats.to_zkvm_input ⟨"00000000000000000000000000000000000001", true, 1000, "Token", "TKN", 10, true, 500, 2000⟩ =
      some [0, 1, 10, 1, 500, 2000, 1000, 1] :=
  to_zkvm_input_vector.1 _ 0 1 (by decide)


/-- Claim C5 counterexample: a prover output document whose proof field `a`
holds the unparseable hex string "zz" is still accepted by get_results,
because the proof fields are not parsed at parse time. -/
theorem get_results_parse_time_cex :
    parseHex "zz" = none ∧
    Docker.get_results ⟨"bn128", "g16", ⟨["zz", "zz"], [["0", "0"], ["0", "0"]], ["0", "0"]⟩,
        ["1", "2", "3", "4"]⟩ =
      some ⟨"bn128", ⟨["zz", "zz"], [["0", "0"], ["0", "0"]], ["0", "0"]⟩, "g16", ⟨1, 2, 3, 4⟩⟩ :=
  ⟨rfl, rfl⟩

/-- Claim C5 (amended): get_results parses exactly the four inputs entries,
in the fixed order score, signature, address_part1, address_part2, failing
when one of them does not parse; the proof fields a, b, c are copied
verbatim as strings and are only parsed when encoded for submission. -/
theorem get_results_parse_behavior :
    (∀ (doc : ProverDoc) (c : Computation), Docker.get_results doc = some c →
       (doc.inputs.get? 0).bind parseHex = some c.inputs.score ∧
       (doc.inputs.get? 1).bind parseHex = some c.inputs.signature ∧
       (doc.inputs.get? 2).bind parseHex = some c.inputs.address_part1 ∧
       (doc.inputs.get? 3).bind parseHex = some c.inputs.address_part2 ∧
       c.proof.a = doc.proof.a ∧ c.proof.b = doc.proof.b ∧ c.proof.c = doc.proof.c ∧
       c.curve = doc.curve ∧ c.scheme = doc.scheme) ∧
    (∀ (doc : ProverDoc) (j : Nat) (i : String), j < 4 → doc.inputs.get? j = some i →
       parseHex i = none → Docker.get_results doc = none) := by
  constructor
  · intro doc c h
    unfold Docker.get_results at h
    rcases h0 : (doc.inputs.get? 0).bind parseHex with _ | v0
    · rw [h0] at h
      simp at h
    rcases h1 : (doc.inputs.get? 1).bind parseHex with _ | v1
    · rw [h0, h1] at h
      simp at h
    rcases h2 : (doc.inputs.get? 2).bind parseHex with _ | v2
    · rw [h0, h1, h2] at h
      simp at h
    rcases h3 : (doc.inputs.get? 3).bind parseHex with _ | v3
    · rw [h0, h1, h2, h3] at h
      simp at h
    rw [h0, h1, h2, h3] at h
    have h' : (some (⟨doc.curve, ⟨doc.proof.a, doc.proof.b, doc.proof.c⟩, doc.scheme,
        ⟨v0, v1, v2, v3⟩⟩ : Computation)) = some c := h
    injection h' with h''
    subst h''
    exact ⟨rfl, rfl, rfl, rfl, rfl, rfl, rfl, rfl, rfl⟩
  · intro doc j i hj hij hp
    unfold Docker.get_results
    interval_cases j
    · rw [hij]
      simp [hp]
    · rw [hij]
      rcases (doc.inputs.get? 0).bind parseHex with _ | v0 <;> simp [hp]
    · rw [hij]
      rcases (doc.inputs.get? 0).bind parseHex with _ | v0 <;>
        rcases (doc.inputs.get? 1).bind parseHex with _ | v1 <;> simp [hp]
    · rw [hij]
      rcases (doc.inputs.get? 0).bind parseHex with _ | v0 <;>
        rcases (doc.inputs.get? 1).bind parseHex with _ | v1 <;>
          rcases (doc.inputs.get? 2).bind parseHex with _ | v2 <;> simp [hp]

theorem get_results_parse_behavior_witness :
    ((["1", "2", "3", "4"] : List String).get? 0).bind parseHex = some 1 ∧
    Docker.get_results ⟨"bn128", "g16", ⟨["zz", "zz"], [], []⟩, ["zz", "2", "3", "4"]⟩ = none :=
  ⟨(get_results_parse_behavior.1 ⟨"bn128", "g16", ⟨["a"], [], []⟩, ["1", "2", "3", "4"]⟩
      ⟨"bn128", ⟨["a"], [], []⟩, "g16", ⟨1, 2, 3, 4⟩⟩ rfl).1,
   get_results_parse_behavior.2 ⟨"bn128", "g16", ⟨["zz", "zz"], [], []⟩, ["zz", "2", "3", "4"]⟩
     0 "zz" (by omega) rfl rfl⟩

/-- Claim C6 counterexample: when the verifier logically rejects, the tail
of main does not complete with result false and no error; it prints the
false result and then raises. -/
theorem main_reject_raises_cex :
    (mainTail (Except.ok false)).printed_certified = some false ∧
    (mainTail (Except.ok false)).error = some MainError.proofVerificationFailed ∧
    mainTail (Except.ok false) ≠ ⟨some false, none⟩ := by
  refine ⟨rfl, rfl, ?_⟩
  intro h
  have h' := congrArg RunOutcome.error h
  exact Option.noConfusion h'

/-- Claim C6 (amended): a true receipt completes without error; a false
receipt is reported as a false certification result and then ends the run
by raising the proof-verification-failed error; a transport failure inside
the verifier call propagates before any result is reported. -/
theorem main_tail_outcomes :
    mainTail (Except.ok true) = ⟨some true, none⟩ ∧
    mainTail (Except.ok false) = ⟨some false, some MainError.proofVerificationFailed⟩ ∧
    mainTail (Except.error ()) = ⟨none, some MainError.verifierCallFailed⟩ :=
  ⟨rfl, rfl, rfl⟩

/-- Claim C7: proofs are submitted in the pair-array-pair layout with every
entry parsed in base 16, and public inputs as the 4-element sequence in the
fixed field order score, signature, address_part1, address_part2. -/
theorem to_solidity_layout :
    (∀ (p : Proof) (a0 a1 b00 b01 b10 b11 c0 c1 : String)
       (va0 va1 vb00 vb01 vb10 vb11 vc0 vc1 : Nat),
       p.a = [a0, a1] → p.b = [[b00, b01], [b10, b11]] → p.c = [c0, c1] →
       parseHex a0 = some va0 → parseHex a1 = some va1 →
       parseHex b00 = some vb00 → parseHex b01 = some vb01 →
       parseHex b10 = some vb10 → parseHex b11 = some vb11 →
       parseHex c0 = some vc0 → parseHex c1 = some vc1 →
       p.to_solidity = some ((va0, va1), [[vb00, vb01], [vb10, vb11]], (vc0, vc1))) ∧
    (∀ i : Inputs, i.to_solidity = [i.score, i.signature, i.address_part1, i.address_part2]) := by
  constructor
  · intro p a0 a1 b00 b01 b10 b11 c0 c1 va0 va1 vb00 vb01 vb10 vb11 vc0 vc1
    intro ha hb hc hpa0 hpa1 hpb00 hpb01 hpb10 hpb11 hpc0 hpc1
    simp [Proof.to_solidity, ha, hb, hc, hpa0, hpa1, hpb00, hpb01, hpb10, hpb11, hpc0, hpc1]
  · intro i
    rfl

theorem to_solidity_layout_witness :
    Proof.to_solidity ⟨["1", "2"], [["3", "4"], ["5", "6"]], ["7", "8"]⟩ =
      some ((1, 2), [[3, 4], [5, 6]], (7, 8)) ∧
    Inputs.to_solidity ⟨9, 10, 11, 12⟩ = [9, 10, 11, 12] :=
  ⟨to_solidity_layout.1 _ "1" "2" "3" "4" "5" "6" "7" "8" 1 2 3 4 5 6 7 8
      rfl rfl rfl rfl rfl rfl rfl rfl rfl rfl rfl,
   to_solidity_layout.2 _⟩


/-- Claim C8: on lowercase 40-hex-digit addresses, split_address is
injective — distinct addresses never produce the same pair of halves. -/
theorem split_address_injective (s t : Stats)
    (hs : ∀ c ∈ s.contract_address.data, isLowerHexChar c = true)
    (ht : ∀ c ∈ t.contract_address.data, isLowerHexChar c = true)
    (hsl : s.contract_address.length = 40) (htl : t.contract_address.length = 40)
    (hne : s.contract_address ≠ t.contract_address) :
    s.split_address ≠ t.split_address := by
  intro heq
  apply hne
  have hshex : ∀ c ∈ s.contract_address.data, (hexDigit? c).isSome :=
    fun c hc => lower_isSome (hs c hc)
  have hthex : ∀ c ∈ t.contract_address.data, (hexDigit? c).isSome :=
    fun c hc => lower_isSome (ht c hc)
  rw [split_address_hex s hshex (by omega), split_address_hex t hthex (by omega),
      hsl, htl] at heq
  norm_num at heq
  obtain ⟨e1, e2⟩ := heq
  have hsd : s.contract_address.data.length = 40 := hsl
  have htd : t.contract_address.data.length = 40 := htl
  have hc1 : s.contract_address.data.take 20 = t.contract_address.data.take 20 := by
    apply lowerHex_chars_inj
    · simp [hsd, htd]
    · exact fun c hc => hs c (List.take_subset _ _ hc)
    · exact fun c hc => ht c (List.take_subset _ _ hc)
    · apply foldl16_inj
      · simp [digitsOf, hsd, htd]
      · exact digitsOf_lt (fun c hc => hshex c (List.take_subset _ _ hc))
      · exact digitsOf_lt (fun c hc => hthex c (List.take_subset _ _ hc))
      · exact e1
  have hc2 : s.contract_address.data.drop 20 = t.contract_address.data.drop 20 := by
    apply lowerHex_chars_inj
    · simp [hsd, htd]
    · exact fun c hc => hs c (List.drop_subset _ _ hc)
    · exact fun c hc => ht c (List.drop_subset _ _ hc)
    · apply foldl16_inj
      · simp [digitsOf, hsd, htd]
      · exact digitsOf_lt (fun c hc => hshex c (List.drop_subset _ _ hc))
      · exact digitsOf_lt (fun c hc => hthex c (List.drop_subset _ _ hc))
      · exact e2
  have hdata : s.contract_address.data = t.contract_address.data := by
    rw [← List.take_append_drop 20 s.contract_address.data,
        ← List.take_append_drop 20 t.contract_address.data, hc1, hc2]
  exact congrArg String.mk hdata

theorem split_address_injective_witness :
    Stats.split_address ⟨"0000000000000000000000000000000000000000", false, 0, "", "", 0, false, 0, 0⟩ ≠
      Stats.split_address ⟨"0000000000000000000000000000000000000001", false, 0, "", "", 0, false, 0, 0⟩ :=
  split_address_injective _ _ (by decide) (by decide) (by decide) (by decide) (by decide)

/-- Claim C9: on any even-length string of hex digits the split is an exact
base-16 decomposition: part1 scaled by 16 to the half-length plus part2
recovers the value of the whole address, and part2 is strictly below the
scale factor. -/
theorem split_address_decomposition (st : Stats)
    (hhex : ∀ c ∈ st.contract_address.data, (hexDigit? c).isSome)
    (heven : st.contract_address.length % 2 = 0)
    (hlen : 2 ≤ st.contract_address.length) :
    ∃ p1 p2 v, st.split_address = some (p1, p2) ∧
      parseHex st.contract_address = some v ∧
      p1 * 16 ^ (st.contract_address.length / 2) + p2 = v ∧
      p2 < 16 ^ (st.contract_address.length / 2) := by
  have hL : st.contract_address.length = st.contract_address.data.length := rfl
  have hne : st.contract_address.data ≠ [] := by
    intro hnil
    have h0 : st.contract_address.data.length = 0 := by rw [hnil]; rfl
    omega
  have hdlen : (st.contract_address.data.drop (st.contract_address.length / 2)).length =
      st.contract_address.length / 2 := by
    rw [List.length_drop]
    omega
  have hmaplen : (digitsOf (st.contract_address.data.drop (st.contract_address.length / 2))).length =
      st.contract_address.length / 2 := by
    unfold digitsOf
    rw [List.length_map, hdlen]
  refine ⟨_, _, _, split_address_hex st hhex hlen, parseHex_of_hex hne hhex, ?_, ?_⟩
  · have key : hexStringVal st.contract_address.data =
        hexStringVal (st.contract_address.data.take (st.contract_address.length / 2)) *
          16 ^ (st.contract_address.length / 2) +
        hexStringVal (st.contract_address.data.drop (st.contract_address.length / 2)) := by
      unfold hexStringVal digitsOf
      conv_lhs => rw [← List.take_append_drop (st.contract_address.length / 2) st.contract_address.data]
      rw [List.map_append, List.foldl_append, foldl_shift, List.length_map, hdlen]
    exact key.symm
  · have hb := foldl_lt (@digitsOf_lt (st.contract_address.data.drop (st.contract_address.length / 2))
      (fun c hc => hhex c (List.drop_subset _ _ hc))) 0
    rw [hmaplen] at hb
    simpa [hexStringVal] using hb

theorem split_address_decomposition_witness :
    ∃ p1 p2 v, Stats.split_address ⟨"ff01", false, 0, "", "", 0, false, 0, 0⟩ = some (p1, p2) ∧
      parseHex "ff01" = some v ∧ p1 * 16 ^ 2 + p2 = v ∧ p2 < 16 ^ 2 :=
  split_address_decomposition ⟨"ff01", false, 0, "", "", 0, false, 0, 0⟩
    (by decide) (by decide) (by decide)

/-- Claim C10: split_address performs no length validation — every string
of hex digits of length at least 2, odd lengths and lengths other than 40
included, splits successfully; a split fails exactly when one of the two
halves fails to parse in base 16. -/
theorem split_address_no_validation :
    (∀ st : Stats, (∀ c ∈ st.contract_address.data, (hexDigit? c).isSome) →
       2 ≤ st.contract_address.length →
       st.split_address =
         some (hexStringVal (st.contract_address.data.take (st.contract_address.length / 2)),
               hexStringVal (st.contract_address.data.drop (st.contract_address.length / 2)))) ∧
    (∀ st : Stats, st.split_address = none ↔
       (parseHex (String.mk (st.contract_address.data.take (st.contract_address.length / 2))) = none ∨
        parseHex (String.mk (st.contract_address.data.drop (st.contract_address.length / 2))) = none)) := by
  constructor
  · exact fun st h hl => split_address_hex st h hl
  · intro st
    unfold Stats.split_address
    rcases h1 : parseHex (String.mk (st.contract_address.data.take (st.contract_address.length / 2))) with _ | v1 <;>
      rcases h2 : parseHex (String.mk (st.contract_address.data.drop (st.contract_address.length / 2))) with _ | v2 <;>
        simp [h1, h2]

theorem split_address_no_validation_witness :
    Stats.split_address ⟨"abcde", false, 0, "", "", 0, false, 0, 0⟩ = some (171, 3294) ∧
    (Stats.split_address ⟨"xy", false, 0, "", "", 0, false, 0, 0⟩ = none ↔
      (parseHex (String.mk ("xy".data.take 1)) = none ∨
       parseHex (String.mk ("xy".data.drop 1)) = none)) :=
  ⟨split_address_no_validation.1 ⟨"abcde", false, 0, "", "", 0, false, 0, 0⟩ (by decide) (by decide),
   split_address_no_validation.2 ⟨"xy", false, 0, "", "", 0, false, 0, 0⟩⟩

end ZkTrust
